import Mathlib

/-!
Verification of the movie-browser core pipeline (src/main.py): the URL
normalizer `_abs_url`, the dataset locator `_find_csv_path`, the loader
`load_movies`, the seeded sampler used in `main`, and the session seed state.

Strings are embedded as lists of characters so that the Python `str.strip`,
`str.lower`, `str.startswith`, `str.lstrip("/")` and `str.rstrip("/")` can be
reasoned about by structural induction.
-/

namespace Movies

/-- Python strings, embedded as lists of characters. -/
abbrev Str := List Char

/-- The ASCII whitespace characters stripped by the Python `str.strip()`. -/
def isSpace (c : Char) : Bool :=
  c == ' ' || c == '\t' || c == '\n' || c == '\r' || c == '\x0b' || c == '\x0c'

/-- Prepend `c` to an already right-trimmed tail: if the tail is empty, `c`
survives only when it is not whitespace. -/
def consR (c : Char) : Str → Str
  | [] => if isSpace c then [] else [c]
  | c' :: t' => c :: c' :: t'

/-- Remove trailing whitespace (the right half of the Python `str.strip()`). -/
def rdropWs : Str → Str
  | [] => []
  | c :: t => consR c (rdropWs t)

/-- The Python `str.strip()`: remove leading and trailing whitespace. -/
def pyStrip (s : Str) : Str := rdropWs (s.dropWhile isSpace)

/-- The Python `str.lower()` (ASCII case folding). -/
def pyLower (s : Str) : Str := s.map Char.toLower

/-- Test whether `s` begins with the pattern `p`; the recursion is on the
pattern (first argument). -/
def startsWithAux : Str → Str → Bool
  | [], _ => true
  | _ :: _, [] => false
  | b :: ps, c :: cs => c == b && startsWithAux ps cs

/-- The Python `s.startswith(p)`. -/
def startsWithS (s p : Str) : Bool := startsWithAux p s

/-- The Python `s.rstrip("/")`: remove trailing `'/'` characters. -/
def rstripSlash (s : Str) : Str := ((s.reverse.dropWhile (· == '/'))).reverse

/-- The Python `s.lstrip("/")`: remove leading `'/'` characters. -/
def lstripSlash (s : Str) : Str := s.dropWhile (· == '/')

/-- The constant `BASE_URL` from src/main.py, used to resolve relative links. -/
def BASE_URL : Str := "https://ithinker.ru".toList

/-- The constant `DEFAULT_CSV_NAME` from src/main.py. -/
def DEFAULT_CSV_NAME : String := "movies.csv"

/-- The string `"nan"` that `str()` produces from a float NaN cell. -/
def nanStr : Str := "nan".toList

/-- The body of `_abs_url` after the `None` check: `u = str(url).strip()`
followed by the branch cascade (src/main.py lines 20-29).  The argument is
already the result of the Python `str(...)`. -/
def absUrlStr (url : Str) (base : Str) : Str :=
  let u := pyStrip url
  if u.isEmpty || (pyLower u == nanStr) then []
  else if startsWithS u ("http://".toList) || startsWithS u ("https://".toList) then u
  else if startsWithS u ("//".toList) then ("https:".toList) ++ u
  else if startsWithS u ("/".toList) then rstripSlash base ++ u
  else rstripSlash base ++ ("/".toList) ++ lstripSlash u

/-- Function `_abs_url` from src/main.py: `None` maps to `""`, otherwise the string
is coerced with `str()` (the argument here) and normalized. -/
def absUrl (url : Option Str) (base : Str) : Str :=
  match url with
  | none => []
  | some u => absUrlStr u base


/-! ## Dataset locator (`_find_csv_path`, src/main.py lines 32-45) -/

/-- Python `s.endswith(p)`, computed structurally: `s` ends with `p` exactly when the
reversal of `s` starts with the reversal of `p`.  Used to embed the glob
pattern `"*.csv"`, which matches exactly the names ending in `".csv"`. -/
def endsWithS (s p : String) : Bool := startsWithS s.toList.reverse p.toList.reverse

/-- Lexicographic comparison of character lists by code point: the order used
by the Python `sorted` on strings. -/
def strLeChars : Str → Str → Bool
  | [], _ => true
  | _ :: _, [] => false
  | a :: s, b :: t => if a = b then strLeChars s t else decide (a < b)

/-- Lexicographic order on file / column names. -/
def strLe (a b : String) : Prop := strLeChars a.toList b.toList = true

instance : DecidableRel strLe := fun a b =>
  inferInstanceAs (Decidable (strLeChars a.toList b.toList = true))

/-- The error raised by `_find_csv_path` when no CSV candidate exists. -/
inductive NotFoundError where
  | noCsv
deriving DecidableEq

/-- Function `_find_csv_path` from src/main.py, over the list of file names present in
the directory of the script: prefer `movies.csv` when it exists, otherwise the
first of the sorted `*.csv` candidates, otherwise `FileNotFoundError`. -/
def findCsvPath (files : List String) : Except NotFoundError String :=
  if DEFAULT_CSV_NAME ∈ files then Except.ok DEFAULT_CSV_NAME
  else
    match List.insertionSort strLe (files.filter (fun f => endsWithS f ".csv")) with
    | [] => Except.error NotFoundError.noCsv
    | f :: _ => Except.ok f


/-! ## Loader / validator (`load_movies`, src/main.py lines 48-70) -/

/-- One raw cell of the CSV as pandas presents it: `none` is a missing value
(a float NaN), `some s` is a text value. -/
abbrev Cell := Option Str

/-- The Python `str()` applied to a cell: `str(nan) = "nan"`, text unchanged.
This is what `.astype(str)` does to each cell on src/main.py lines 62-63 (the
subsequent `.fillna("")` acts on a column that no longer contains NaN, so it
is the identity), and what `str(url)` does inside `_abs_url`. -/
def pyStrCell : Cell → Str
  | none => nanStr
  | some s => s

/-- A raw row of the CSV, restricted to the four required columns. -/
structure RawRow where
  page_url : Cell
  image_url : Cell
  movie_title : Cell
  description : Cell
deriving DecidableEq

/-- The raw table produced by `pd.read_csv`: its column names and its rows. -/
structure RawTable where
  columns : List String
  rows : List RawRow
deriving DecidableEq

/-- A normalized movie record (one row of the loaded DataFrame). -/
structure MovieRecord where
  page_url : Str
  image_url : Str
  movie_title : Str
  description : Str
deriving DecidableEq

/-- The loaded, validated dataset: an ordered list of records (rows are
reindexed contiguously by `reset_index`, which the list structure embeds). -/
abbrev Dataset := List MovieRecord

/-- The `ValueError` raised by `load_movies` on missing required columns. -/
inductive SchemaError where
  | missingColumns (cols : List String)
deriving DecidableEq

/-- The required column set of src/main.py line 53: page_url, image_url,
movie_title, description. -/
def requiredCols : List String := ["page_url", "image_url", "movie_title", "description"]

/-- The sorted list `sorted(required - set(df.columns))` of src/main.py lines 54-57. -/
def missingCols (t : RawTable) : List String :=
  List.insertionSort strLe (requiredCols.filter (fun c => decide (c ∉ t.columns)))

/-- The per-row normalization of src/main.py lines 62-65:
`movie_title`/`description` go through `.astype(str).fillna("").str.strip()`
(`pyStrip ∘ pyStrCell`, the `fillna` being the identity), and
`page_url`/`image_url` go through `_abs_url` (whose internal `str(url)` is
`pyStrCell`). -/
def normalizeRow (r : RawRow) : MovieRecord :=
  { movie_title := pyStrip (pyStrCell r.movie_title)
  , description := pyStrip (pyStrCell r.description)
  , page_url := absUrlStr (pyStrCell r.page_url) BASE_URL
  , image_url := absUrlStr (pyStrCell r.image_url) BASE_URL }

/-- Function `load_movies` from src/main.py, over an already-read raw table: check the
required columns, normalize every row, drop rows whose `movie_title` or
`description` is empty, reindex. -/
def loadMovies (t : RawTable) : Except SchemaError Dataset :=
  let missing := missingCols t
  if missing = [] then
    Except.ok (((t.rows.map normalizeRow).filter
      (fun r => !r.movie_title.isEmpty && !r.description.isEmpty)))
  else Except.error (SchemaError.missingColumns missing)

/-! ## Sampler (src/main.py lines 103-104) -/

/-- A step of the pseudo-random generator driving the selection.  Models the
seeded generator behind pandas `DataFrame.sample(random_state=seed)`: the only
properties used are that it is a pure function of its state. -/
def lcg (s : Nat) : Nat := (6364136223846793005 * s + 1442695040888963407) % (2 ^ 64)

/-- Draw all elements of `rem` in a pseudo-random order: repeatedly pick the
position `state % length` and remove it.  `fuel` bounds the recursion and is
always called with `fuel = rem.length`. -/
def drawFuel : Nat → Nat → List α → List α
  | 0, _, _ => []
  | _ + 1, _, [] => []
  | fuel + 1, s, a :: t =>
    let l := a :: t
    let i := s % l.length
    l.get ⟨i, Nat.mod_lt _ (Nat.succ_pos _)⟩ :: drawFuel fuel (lcg s) (l.eraseIdx i)

/-- A seeded pseudo-random permutation of a list. -/
def shuffleL (seed : Nat) (l : List α) : List α := drawFuel l.length seed l

/-- The index sequence selected by `df.sample(n=sample_n, random_state=seed)`
with `sample_n = min n size` (src/main.py lines 103-104): a without-replacement
draw of `min n size` distinct row indices, fully determined by `seed`. -/
def sampleIndices (size n seed : Nat) : List Nat :=
  (shuffleL seed (List.range size)).take (min n size)

/-- Lines 103-104 of src/main.py, `sample_n = min(n, len(df))` followed by
`df.sample(n=sample_n, random_state=seed)`: the rows of the dataset at
the selected indices, in selection order. -/
def sampleMovies (d : Dataset) (n seed : Nat) : Dataset :=
  (sampleIndices d.length n seed).filterMap (fun i => d[i]?)

/-! ## Seed state (src/main.py lines 98-101) -/

/-- One render pass over the session seed (src/main.py lines 98-101):
`if "seed" not in st.session_state: st.session_state.seed = 42` followed by
`if refresh: st.session_state.seed += 1`.  `none` is a session state that does
not yet hold a seed; the result is the seed value used by this pass (and
stored in the session state for the next pass). -/
def stepSeed (st : Option Nat) (refresh : Bool) : Nat :=
  let s := st.getD 42
  if refresh then s + 1 else s

/-- The seed after a session that starts with no stored seed and performs one
render pass per entry of `rs` (`true` = the refresh button was pressed). -/
def seedTrace : Option Nat → List Bool → Nat
  | st, [] => st.getD 42
  | st, r :: rs => seedTrace (some (stepSeed st r)) rs

/-- The `"http://"` scheme marker. -/
def httpPre : Str := "http://".toList

/-- The `"https://"` scheme marker. -/
def httpsPre : Str := "https://".toList

/-- A fixed three-record dataset used to instantiate the sampler claims. -/
def exD3 : Dataset :=
  [ ⟨"https://a".toList, "https://ia".toList, "A".toList, "da".toList⟩
  , ⟨"https://b".toList, "https://ib".toList, "B".toList, "db".toList⟩
  , ⟨"https://c".toList, "https://ic".toList, "C".toList, "dc".toList⟩ ]

/-- The record invariant on URL fields: empty, or carrying an explicit
`http://` or `https://` scheme. -/
def urlOk (v : Str) : Prop :=
  v = [] ∨ startsWithS v ("http://".toList) = true ∨
    startsWithS v ("https://".toList) = true

/-- A table whose single row has a missing (NaN) `movie_title`. -/
def c1Table : RawTable :=
  { columns := ["page_url", "image_url", "movie_title", "description"]
  , rows := [ { page_url := some ("/film/a".toList)
              , image_url := some ("/img/a.png".toList)
              , movie_title := none
              , description := some ("descA".toList) } ] }

/-- A table whose single row is fully valid (with a missing poster URL). -/
def c5Table : RawTable :=
  { columns := ["page_url", "image_url", "movie_title", "description"]
  , rows := [ { page_url := some ("/film/a".toList)
              , image_url := none
              , movie_title := some ("A".toList)
              , description := some ("da".toList) } ] }

/-- The record `load_movies` produces from the single row of `c5Table`. -/
def c5Rec : MovieRecord :=
  { page_url := "https://ithinker.ru/film/a".toList
  , image_url := []
  , movie_title := "A".toList
  , description := "da".toList }

/-! ## Lexicographic-order lemmas -/

theorem strLeChars_total (s t : Str) : strLeChars s t = true ∨ strLeChars t s = true := by
  induction s generalizing t with
  | nil => exact Or.inl rfl
  | cons a s ih =>
    cases t with
    | nil => exact Or.inr rfl
    | cons b t =>
      by_cases hab : a = b
      · subst hab
        simpa [strLeChars] using ih t
      · rcases lt_or_gt_of_ne hab with h | h
        · exact Or.inl (by simp [strLeChars, hab, h])
        · exact Or.inr (by simp [strLeChars, Ne.symm hab, h])

theorem strLeChars_trans {s t u : Str} (h₁ : strLeChars s t = true)
    (h₂ : strLeChars t u = true) : strLeChars s u = true := by
  induction s generalizing t u with
  | nil => rfl
  | cons a s ih =>
    cases t with
    | nil => simp [strLeChars] at h₁
    | cons b t =>
      cases u with
      | nil => simp [strLeChars] at h₂
      | cons c u =>
        by_cases hab : a = b <;> by_cases hbc : b = c
        · subst hab; subst hbc
          simp only [strLeChars, if_pos rfl] at h₁ h₂ ⊢
          exact ih h₁ h₂
        · subst hab
          simpa [strLeChars, hbc] using h₂
        · subst hbc
          simpa [strLeChars, hab] using h₁
        · simp only [strLeChars, if_neg hab] at h₁
          simp only [strLeChars, if_neg hbc] at h₂
          have hac : a < c := lt_trans (of_decide_eq_true h₁) (of_decide_eq_true h₂)
          simp [strLeChars, ne_of_lt hac, hac]

instance : IsTotal String strLe := ⟨fun a b => strLeChars_total a.toList b.toList⟩

instance : IsTrans String strLe := ⟨fun _ _ _ => strLeChars_trans⟩

/-! ## String lemmas -/

theorem startsWithS_append (p r : Str) : startsWithS (p ++ r) p = true := by
  induction p generalizing r with
  | nil => rfl
  | cons c p ih => simpa [startsWithS, startsWithAux] using ih r

theorem eq_append_of_startsWithS : ∀ {s p : Str}, startsWithS s p = true → ∃ r, s = p ++ r := by
  intro s p
  induction p generalizing s with
  | nil => exact fun _ => ⟨s, rfl⟩
  | cons b p ih =>
    cases s with
    | nil => intro h; simp [startsWithS, startsWithAux] at h
    | cons c s =>
      intro h
      simp only [startsWithS, startsWithAux, Bool.and_eq_true, beq_iff_eq] at h
      obtain ⟨r, hr⟩ := ih h.2
      exact ⟨r, by rw [h.1, List.cons_append, hr]⟩

theorem consR_ne_nil_of_cons (c c' : Char) (t' : Str) : consR c (c' :: t') = c :: c' :: t' := rfl

theorem rdropWs_idem (l : Str) : rdropWs (rdropWs l) = rdropWs l := by
  induction l with
  | nil => rfl
  | cons c t ih =>
    cases h : rdropWs t with
    | nil =>
      by_cases hc : isSpace c
      · simp [rdropWs, consR, h, hc]
      · simp [rdropWs, consR, h, hc]
    | cons c' t' =>
      have h2 : rdropWs (c' :: t') = c' :: t' := by rw [← h, ih]
      rw [rdropWs, h, consR_ne_nil_of_cons, rdropWs, h2, consR_ne_nil_of_cons]

theorem rdropWs_append (x t : Str) (h : rdropWs t ≠ []) :
    rdropWs (x ++ t) = x ++ rdropWs t := by
  induction x with
  | nil => rfl
  | cons c x ih =>
    rw [List.cons_append, rdropWs, ih]
    cases hx : x ++ rdropWs t with
    | nil =>
      rcases List.append_eq_nil.mp hx with ⟨-, h2⟩
      exact absurd h2 h
    | cons c' t' => rw [consR_ne_nil_of_cons, ← hx, List.cons_append]

theorem rdropWs_eq_nil_iff (l : Str) : rdropWs l = [] ↔ ∀ c ∈ l, isSpace c = true := by
  induction l with
  | nil => simp [rdropWs]
  | cons c t ih =>
    rw [rdropWs]
    cases h : rdropWs t with
    | nil =>
      by_cases hc : isSpace c
      · simp only [consR, if_pos hc, List.mem_cons, forall_eq_or_imp]
        exact iff_of_true (by simp) ⟨hc, ih.mp h⟩
      · simp [consR, hc]
    | cons c' t' =>
      have hnt : ¬ ∀ a ∈ t, isSpace a = true := fun hall => by
        rw [ih.mpr hall] at h; cases h
      rw [consR_ne_nil_of_cons]
      simp only [List.mem_cons, forall_eq_or_imp]
      exact iff_of_false (by simp) (fun hh => hnt hh.2)

theorem dropWhile_head_false {p : Char → Bool} (l : Str) :
    ∀ a t, l.dropWhile p = a :: t → p a = false := by
  induction l with
  | nil => intro a t h; simp [List.dropWhile] at h
  | cons c l ih =>
    intro a t h
    by_cases hc : p c
    · rw [List.dropWhile_cons, if_pos hc] at h
      exact ih a t h
    · rw [List.dropWhile_cons, if_neg hc] at h
      cases h
      simpa using hc

theorem pyStrip_stripped (u : Str) :
    List.dropWhile isSpace (pyStrip u) = pyStrip u ∧ rdropWs (pyStrip u) = pyStrip u := by
  constructor
  · rw [pyStrip]
    cases hd : List.dropWhile isSpace u with
    | nil => rfl
    | cons a t =>
      have ha : isSpace a = false := dropWhile_head_false u a t hd
      rw [rdropWs]
      cases h3 : rdropWs t with
      | nil =>
        rw [consR, if_neg (by simp [ha])]
        rw [List.dropWhile_cons, if_neg (by simp [ha])]
      | cons b s =>
        rw [consR_ne_nil_of_cons]
        rw [List.dropWhile_cons, if_neg (by simp [ha])]
  · rw [pyStrip, rdropWs_idem]

theorem pyStrip_idem (u : Str) : pyStrip (pyStrip u) = pyStrip u := by
  obtain ⟨h1, h2⟩ := pyStrip_stripped u
  rw [pyStrip, h1, h2]

theorem pyStrip_append_fixed (x w : Str) (c : Char) (t : Str)
    (hx : x = c :: t) (hc : isSpace c = false) (hw : rdropWs w = w) (hw0 : w ≠ []) :
    pyStrip (x ++ w) = x ++ w := by
  subst hx
  have h2 : rdropWs ((c :: t) ++ w) = (c :: t) ++ w := by
    rw [rdropWs_append _ w (by rw [hw]; exact hw0), hw]
  have h1 : List.dropWhile isSpace ((c :: t) ++ w) = (c :: t) ++ w := by
    rw [List.cons_append, List.dropWhile_cons, if_neg (by simp [hc])]
  rw [pyStrip, h1, h2]

/-! ## URL normalizer lemmas -/

theorem all_space_of_dropWhile (u : Str)
    (h : ∀ c ∈ u.dropWhile isSpace, isSpace c = true) : ∀ c ∈ u, isSpace c = true := by
  induction u with
  | nil => simp
  | cons a t ih =>
    by_cases ha : isSpace a = true
    · rw [List.dropWhile_cons, if_pos ha] at h
      intro c hc
      rcases List.mem_cons.mp hc with rfl | hc
      · exact ha
      · exact ih h c hc
    · rw [List.dropWhile_cons, if_neg ha] at h
      exact h

theorem pyStrip_eq_nil_iff (u : Str) : pyStrip u = [] ↔ ∀ c ∈ u, isSpace c = true := by
  rw [pyStrip, rdropWs_eq_nil_iff]
  constructor
  · exact all_space_of_dropWhile u
  · exact fun h c hc => h c ((List.dropWhile_sublist _).subset hc)

theorem absUrlStr_of_http (u base : Str)
    (h : startsWithS (pyStrip u) ("http://".toList) = true ∨
         startsWithS (pyStrip u) ("https://".toList) = true) :
    absUrlStr u base = pyStrip u := by
  have hne : (pyStrip u).isEmpty = false := by
    rcases h with h | h <;>
      (obtain ⟨r, hr⟩ := eq_append_of_startsWithS h; rw [hr]; rfl)
  have hnan : (pyLower (pyStrip u) == nanStr) = false := by
    rcases h with h | h <;>
      (obtain ⟨r, hr⟩ := eq_append_of_startsWithS h; rw [hr]; rfl)
  simp only [absUrlStr]
  rw [if_neg (by simp [hne, hnan]), if_pos ((Bool.or_eq_true _ _).mpr h)]

theorem absUrlStr_classify (u : Str) :
    absUrlStr u BASE_URL = [] ∨
    ((startsWithS (absUrlStr u BASE_URL) ("http://".toList) = true ∨
      startsWithS (absUrlStr u BASE_URL) ("https://".toList) = true) ∧
      pyStrip (absUrlStr u BASE_URL) = absUrlStr u BASE_URL) := by
  simp only [absUrlStr]
  by_cases h1 : ((pyStrip u).isEmpty || (pyLower (pyStrip u) == nanStr)) = true
  · rw [if_pos h1]
    exact Or.inl rfl
  · rw [if_neg h1]
    have hne : pyStrip u ≠ [] := by
      intro hnil
      apply h1
      rw [hnil]
      rfl
    have hstr : rdropWs (pyStrip u) = pyStrip u := (pyStrip_stripped u).2
    by_cases h2 : (startsWithS (pyStrip u) ("http://".toList) ||
        startsWithS (pyStrip u) ("https://".toList)) = true
    · rw [if_pos h2]
      exact Or.inr ⟨(Bool.or_eq_true _ _).mp h2, pyStrip_idem u⟩
    · rw [if_neg h2]
      by_cases h3 : startsWithS (pyStrip u) ("//".toList) = true
      · rw [if_pos h3]
        refine Or.inr ⟨Or.inr ?_, ?_⟩
        · obtain ⟨r, hr⟩ := eq_append_of_startsWithS h3
          rw [hr, ← List.append_assoc]
          have hcat : ("https:".toList ++ "//".toList : Str) = "https://".toList := by decide
          rw [hcat]
          exact startsWithS_append _ _
        · exact pyStrip_append_fixed _ (pyStrip u) 'h' ("ttps:".toList) (by decide)
            (by decide) hstr hne
      · rw [if_neg h3]
        have hbase : rstripSlash BASE_URL = BASE_URL := by decide
        by_cases h4 : startsWithS (pyStrip u) ("/".toList) = true
        · rw [if_pos h4, hbase]
          refine Or.inr ⟨Or.inr ?_, ?_⟩
          · have hcat : ("https://".toList ++ "ithinker.ru".toList : Str) = BASE_URL := by
              decide
            rw [← hcat, List.append_assoc]
            exact startsWithS_append _ _
          · exact pyStrip_append_fixed _ (pyStrip u) 'h' ("ttps://ithinker.ru".toList)
              (by decide) (by decide) hstr hne
        · rw [if_neg h4, hbase]
          have hls : lstripSlash (pyStrip u) = pyStrip u := by
            cases hu : pyStrip u with
            | nil => rfl
            | cons c t =>
              have hc : (c == '/') = false := by
                rw [hu] at h4
                simp only [startsWithS, startsWithAux, Bool.and_eq_true, beq_iff_eq] at h4
                simp only [beq_eq_false_iff_ne, ne_eq]
                intro hceq
                exact h4 ⟨hceq, trivial⟩
              rw [lstripSlash, List.dropWhile_cons, if_neg (by simp [hc])]
          rw [hls]
          refine Or.inr ⟨Or.inr ?_, ?_⟩
          · have hcat : ("https://".toList ++ "ithinker.ru/".toList : Str) =
                BASE_URL ++ "/".toList := by decide
            rw [← hcat, List.append_assoc]
            exact startsWithS_append _ _
          · have hshape : (BASE_URL ++ "/".toList : Str) =
                'h' :: "ttps://ithinker.ru/".toList := by decide
            exact pyStrip_append_fixed _ (pyStrip u) 'h' ("ttps://ithinker.ru/".toList)
              hshape (by decide) hstr hne

theorem absUrlStr_eq_nil_iff (u base : Str) :
    absUrlStr u base = [] ↔ (pyStrip u = [] ∨ pyLower (pyStrip u) = nanStr) := by
  simp only [absUrlStr]
  by_cases h1 : ((pyStrip u).isEmpty || (pyLower (pyStrip u) == nanStr)) = true
  · rw [if_pos h1]
    have h1' : pyStrip u = [] ∨ pyLower (pyStrip u) = nanStr := by simpa using h1
    exact iff_of_true rfl h1'
  · rw [if_neg h1]
    have h1' : ¬(pyStrip u = [] ∨ pyLower (pyStrip u) = nanStr) := by simpa using h1
    have hne : pyStrip u ≠ [] := fun hh => h1' (Or.inl hh)
    refine iff_of_false ?_ h1'
    split_ifs with h2 h3 h4
    · exact hne
    · intro hh
      exact absurd (List.append_eq_nil.mp hh).1 (by decide)
    · intro hh
      exact absurd (List.append_eq_nil.mp hh).2 hne
    · intro hh
      exact absurd (List.append_eq_nil.mp (List.append_eq_nil.mp hh).1).2 (by decide)

/-- C7 (counterexample): the input `"http://x "` has the `http://` prefix, so
it is routed to the already-absolute branch, yet the normalizer returns the
trimmed string `"http://x"`, not the input unchanged. -/
theorem absUrl_absolute_counterexample :
    startsWithS ("http://x ".toList) ("http://".toList) = true ∧
    absUrlStr ("http://x ".toList) BASE_URL = "http://x".toList ∧
    absUrlStr ("http://x ".toList) BASE_URL ≠ "http://x ".toList := by decide

/-- C7 (amended): for every input whose whitespace-trimmed value has an
`http://` or `https://` prefix, the normalizer returns that trimmed value
unchanged; in particular inputs carrying no surrounding whitespace are
returned verbatim. -/
theorem absUrl_absolute_trimmed (u base : Str)
    (h : startsWithS (pyStrip u) ("http://".toList) = true ∨
         startsWithS (pyStrip u) ("https://".toList) = true) :
    absUrlStr u base = pyStrip u :=
  absUrlStr_of_http u base h

theorem absUrl_absolute_trimmed_witness :
    absUrlStr ("http://x".toList) BASE_URL = pyStrip ("http://x".toList) ∧
    pyStrip ("http://x".toList) = "http://x".toList :=
  ⟨absUrl_absolute_trimmed ("http://x".toList) BASE_URL (Or.inl (by decide)), by decide⟩

/-- C9: with the default base URL, the normalizer is idempotent: every output
is either empty (mapped to itself) or carries an explicit `http`/`https`
scheme and is returned unchanged. -/
theorem absUrl_idempotent (u : Str) :
    absUrlStr (absUrlStr u BASE_URL) BASE_URL = absUrlStr u BASE_URL := by
  rcases absUrlStr_classify u with h | ⟨hsw, hstrip⟩
  · rw [h]
    rfl
  · have hfix := absUrlStr_of_http (absUrlStr u BASE_URL) BASE_URL
      (by rw [hstrip]; exact hsw)
    rw [hfix, hstrip]

/-- C10: the normalizer maps to the empty string not only `None`, the empty
string and the literal `"nan"`, but exactly the inputs that are
whitespace-only or whose whitespace-trimmed value case-folds to `"nan"`
(e.g. `"NaN"`, `"NAN"`, `"  nan  "`). -/
theorem absUrl_empty_mapping :
    (∀ u base : Str, absUrlStr u base = [] ↔
      ((∀ c ∈ u, isSpace c = true) ∨ pyLower (pyStrip u) = nanStr)) ∧
    absUrl none BASE_URL = [] ∧
    absUrlStr ("NaN".toList) BASE_URL = [] ∧
    absUrlStr ("NAN".toList) BASE_URL = [] ∧
    absUrlStr ("  nan  ".toList) BASE_URL = [] ∧
    absUrlStr ("   ".toList) BASE_URL = [] := by
  refine ⟨fun u base => ?_, rfl, by decide, by decide, by decide, by decide⟩
  rw [absUrlStr_eq_nil_iff, pyStrip_eq_nil_iff]

/-! ## Sampler lemmas -/

theorem perm_get_cons_eraseIdx (l : List α) (i : Nat) (h : i < l.length) :
    l.Perm (l.get ⟨i, h⟩ :: l.eraseIdx i) := by
  conv_lhs => rw [← List.take_append_drop i l, ← List.getElem_cons_drop l i h]
  rw [List.eraseIdx_eq_take_drop_succ, List.get_eq_getElem]
  exact List.perm_middle

theorem drawFuel_perm :
    ∀ (fuel s : Nat) (l : List α), l.length ≤ fuel → (drawFuel fuel s l).Perm l := by
  intro fuel
  induction fuel with
  | zero =>
    intro s l h
    have : l = [] := List.eq_nil_of_length_eq_zero (Nat.le_zero.mp h)
    subst this
    simp [drawFuel]
  | succ fuel ih =>
    intro s l h
    cases l with
    | nil => simp [drawFuel]
    | cons a t =>
      have hm : s % (a :: t).length < (a :: t).length :=
        Nat.mod_lt _ (Nat.succ_pos _)
      have hlen : ((a :: t).eraseIdx (s % (a :: t).length)).length ≤ fuel := by
        rw [List.length_eraseIdx_of_lt hm]
        exact Nat.le_of_succ_le_succ (le_trans (Nat.le_of_eq rfl) h)
      have hrec := ih (lcg s) ((a :: t).eraseIdx (s % (a :: t).length)) hlen
      exact ((hrec.cons _).trans (perm_get_cons_eraseIdx (a :: t) _ hm).symm)

theorem shuffleL_perm (seed : Nat) (l : List α) : (shuffleL seed l).Perm l :=
  drawFuel_perm _ _ _ le_rfl

theorem sampleIndices_length (size n seed : Nat) :
    (sampleIndices size n seed).length = min n size := by
  have h := (shuffleL_perm seed (List.range size)).length_eq
  rw [List.length_range] at h
  simp only [sampleIndices, List.length_take, h]
  omega

theorem sampleIndices_lt (size n seed : Nat) :
    ∀ i ∈ sampleIndices size n seed, i < size := by
  intro i hi
  have h1 : i ∈ shuffleL seed (List.range size) := List.mem_of_mem_take hi
  have h2 : i ∈ List.range size := (shuffleL_perm seed (List.range size)).mem_iff.mp h1
  exact List.mem_range.mp h2

theorem sampleIndices_nodup (size n seed : Nat) : (sampleIndices size n seed).Nodup := by
  have h1 : (shuffleL seed (List.range size)).Nodup :=
    (shuffleL_perm seed (List.range size)).nodup_iff.mpr (List.nodup_range size)
  exact h1.sublist (List.take_sublist _ _)

theorem length_filterMap_getElem (d : List α) (idx : List Nat)
    (h : ∀ i ∈ idx, i < d.length) :
    (idx.filterMap (fun i => d[i]?)).length = idx.length := by
  induction idx with
  | nil => rfl
  | cons i t ih =>
    have hi : i < d.length := h i (List.mem_cons_self i t)
    have ht : ∀ j ∈ t, j < d.length := fun j hj => h j (List.mem_cons_of_mem i hj)
    simp [List.filterMap_cons, List.getElem?_eq_getElem hi, ih ht]

/-- C2: the sampler of src/main.py lines 103-104 is deterministic: identical
`(dataset, count, seed)` inputs always produce the identical selected
sequence — the same records in the same order. -/
theorem sampler_deterministic (d₁ d₂ : Dataset) (n₁ n₂ s₁ s₂ : Nat)
    (hd : d₁ = d₂) (hn : n₁ = n₂) (hs : s₁ = s₂) :
    sampleMovies d₁ n₁ s₁ = sampleMovies d₂ n₂ s₂ := by
  subst hd; subst hn; subst hs; rfl

theorem sampler_deterministic_witness :
    sampleMovies exD3 5 7 = sampleMovies exD3 5 7 :=
  sampler_deterministic exD3 exD3 5 5 7 7 rfl rfl rfl

/-- C3: for every dataset, requested count and seed, the sampler returns
exactly `min n (size d)` records, the selected indices are pairwise distinct,
and (total function) it never fails; in particular requesting 1000 records
from the three-record dataset yields exactly 3 pairwise-distinct records. -/
theorem sampler_clamps_nodup :
    (∀ (d : Dataset) (n seed : Nat),
      (sampleMovies d n seed).length = min n d.length ∧
      (sampleIndices d.length n seed).Nodup) ∧
    (sampleMovies exD3 1000 1).length = 3 ∧ (sampleMovies exD3 1000 1).Nodup := by
  refine ⟨fun d n seed => ⟨?_, sampleIndices_nodup _ _ _⟩, ?_, ?_⟩
  · rw [sampleMovies, length_filterMap_getElem d _ (sampleIndices_lt d.length n seed)]
    exact sampleIndices_length _ _ _
  · decide
  · decide

/-- C8: the session seed (src/main.py lines 98-101) is initialized once to 42,
is mutated only by the increment-by-1 triggered by the refresh action, and
never decreases along any reachable sequence of render passes. -/
theorem seed_state_behavior :
    (stepSeed none false = 42) ∧
    (∀ s, stepSeed (some s) true = s + 1) ∧
    (∀ s, stepSeed (some s) false = s) ∧
    (∀ (st : Option Nat) (r : Bool), st.getD 42 ≤ stepSeed st r) ∧
    (∀ rs₁ rs₂ : List Bool, seedTrace none rs₁ ≤ seedTrace none (rs₁ ++ rs₂)) := by
  have hstep : ∀ (st : Option Nat) (r : Bool), st.getD 42 ≤ stepSeed st r := by
    intro st r
    cases r <;> simp [stepSeed]
  have hmono : ∀ (rs : List Bool) (st : Option Nat), st.getD 42 ≤ seedTrace st rs := by
    intro rs
    induction rs with
    | nil => intro st; simp [seedTrace]
    | cons r rs ih =>
      intro st
      calc st.getD 42 ≤ stepSeed st r := hstep st r
        _ = (some (stepSeed st r)).getD 42 := rfl
        _ ≤ seedTrace (some (stepSeed st r)) rs := ih _
        _ = seedTrace st (r :: rs) := rfl
  have happ : ∀ (rs₁ rs₂ : List Bool) (st : Option Nat),
      seedTrace st rs₁ ≤ seedTrace st (rs₁ ++ rs₂) := by
    intro rs₁
    induction rs₁ with
    | nil => intro rs₂ st; exact hmono rs₂ st
    | cons r rs ih => intro rs₂ st; exact ih rs₂ (some (stepSeed st r))
  exact ⟨rfl, fun s => rfl, fun s => rfl, hstep, fun rs₁ rs₂ => happ rs₁ rs₂ none⟩

/-! ## Loader and locator theorems -/

theorem strLeChars_refl (s : Str) : strLeChars s s = true := by
  induction s with
  | nil => rfl
  | cons a s ih => simp [strLeChars, ih]

/-- C1 (code bug): a row whose `movie_title` cell is missing (NaN) is not
treated as empty and dropped: `.astype(str)` (src/main.py line 62) turns the
NaN into the non-empty string `"nan"` before the by-then-useless
`fillna("")`, so the row survives the empty-row filter with title `"nan"`. -/
theorem load_missing_title_kept :
    loadMovies c1Table = Except.ok
      [ { page_url := "https://ithinker.ru/film/a".toList
        , image_url := "https://ithinker.ru/img/a.png".toList
        , movie_title := "nan".toList
        , description := "descA".toList } ] ∧
    pyStrip (pyStrCell none) = "nan".toList ∧ ("nan".toList : Str) ≠ [] :=
  ⟨rfl, rfl, by decide⟩

/-- C4: `load_movies` fails with the schema error exactly when the required
column set is not contained in the columns of the table; the reported list holds
exactly the missing required columns, lexicographically sorted; a table
missing only `image_url` reports exactly `["image_url"]`. -/
theorem load_schema_check (t : RawTable) :
    ((∃ m, loadMovies t = Except.error (SchemaError.missingColumns m)) ↔
      ¬ ∀ c ∈ requiredCols, c ∈ t.columns) ∧
    (∀ m, loadMovies t = Except.error (SchemaError.missingColumns m) →
      List.Sorted strLe m ∧ ∀ c, c ∈ m ↔ (c ∈ requiredCols ∧ c ∉ t.columns)) ∧
    loadMovies { columns := ["page_url", "movie_title", "description"], rows := [] } =
      Except.error (SchemaError.missingColumns ["image_url"]) := by
  have hmemiff : ∀ c, c ∈ missingCols t ↔ (c ∈ requiredCols ∧ c ∉ t.columns) := by
    intro c
    rw [missingCols, (List.perm_insertionSort strLe _).mem_iff, List.mem_filter,
      decide_eq_true_eq]
  have hiff : missingCols t = [] ↔ ∀ c ∈ requiredCols, c ∈ t.columns := by
    constructor
    · intro h c hc
      by_contra hcc
      have : c ∈ missingCols t := (hmemiff c).mpr ⟨hc, hcc⟩
      rw [h] at this
      cases this
    · intro hall
      rw [missingCols, ← List.length_eq_zero, List.length_insertionSort,
        List.length_eq_zero, List.filter_eq_nil_iff]
      intro a ha
      simp only [decide_eq_true_eq]
      exact not_not_intro (hall a ha)
  refine ⟨?_, ?_, rfl⟩
  · constructor
    · rintro ⟨m, hm⟩ hall
      rw [loadMovies] at hm
      rw [if_pos (hiff.mpr hall)] at hm
      cases hm
    · intro hnot
      have hmiss : missingCols t ≠ [] := fun h => hnot (hiff.mp h)
      refine ⟨missingCols t, ?_⟩
      rw [loadMovies]
      rw [if_neg hmiss]
  · intro m hm
    by_cases hmiss : missingCols t = []
    · rw [loadMovies] at hm
      rw [if_pos hmiss] at hm
      cases hm
    · rw [loadMovies] at hm
      rw [if_neg hmiss] at hm
      injection hm with h2
      injection h2 with h3
      subst h3
      exact ⟨List.sorted_insertionSort strLe _, hmemiff⟩

theorem load_schema_check_witness :
    List.Sorted strLe ["image_url"] ∧
    (∀ c, c ∈ ["image_url"] ↔
      (c ∈ requiredCols ∧ c ∉ ["page_url", "movie_title", "description"])) :=
  (load_schema_check
    { columns := ["page_url", "movie_title", "description"], rows := [] }).2.1
    ["image_url"] (by rfl)

/-- C5: every record of a successfully loaded dataset has a non-empty title
and description, and each URL field is either empty or carries an explicit
`http://` / `https://` scheme. -/
theorem load_invariants (t : RawTable) (ds : Dataset) (h : loadMovies t = Except.ok ds) :
    ∀ r ∈ ds, r.movie_title ≠ [] ∧ r.description ≠ [] ∧
      urlOk r.image_url ∧ urlOk r.page_url := by
  intro r hr
  by_cases hmiss : missingCols t = []
  · rw [loadMovies] at h
    rw [if_pos hmiss] at h
    injection h with hds
    subst hds
    obtain ⟨hmem, hp⟩ := List.mem_filter.mp hr
    obtain ⟨raw, hraw, hr2⟩ := List.mem_map.mp hmem
    have ht : r.movie_title ≠ [] := by
      intro hh
      rw [hh] at hp
      simp at hp
    have hd : r.description ≠ [] := by
      intro hh
      rw [hh] at hp
      simp at hp
    refine ⟨ht, hd, ?_, ?_⟩
    · rw [← hr2]
      simp only [normalizeRow]
      rcases absUrlStr_classify (pyStrCell raw.image_url) with hc | ⟨hsw, -⟩
      · exact Or.inl hc
      · exact Or.inr hsw
    · rw [← hr2]
      simp only [normalizeRow]
      rcases absUrlStr_classify (pyStrCell raw.page_url) with hc | ⟨hsw, -⟩
      · exact Or.inl hc
      · exact Or.inr hsw
  · rw [loadMovies] at h
    rw [if_neg hmiss] at h
    cases h

theorem load_invariants_witness :
    c5Rec.movie_title ≠ [] ∧ c5Rec.description ≠ [] ∧
      urlOk c5Rec.image_url ∧ urlOk c5Rec.page_url :=
  load_invariants c5Table [c5Rec] (by rfl) c5Rec (by simp)

/-- C6: the locator returns the canonical `movies.csv` when present;
otherwise it returns the lexicographically least `*.csv` file of the
directory; and it fails with the not-found error exactly when no candidate
exists. -/
theorem locate_rules (files : List String) :
    (DEFAULT_CSV_NAME ∈ files → findCsvPath files = Except.ok DEFAULT_CSV_NAME) ∧
    (findCsvPath files = Except.error NotFoundError.noCsv ↔
      (DEFAULT_CSV_NAME ∉ files ∧ files.filter (fun f => endsWithS f ".csv") = [])) ∧
    (∀ p, DEFAULT_CSV_NAME ∉ files → findCsvPath files = Except.ok p →
      p ∈ files ∧ endsWithS p ".csv" = true ∧
      ∀ q ∈ files, endsWithS q ".csv" = true → strLe p q) := by
  by_cases hmem : DEFAULT_CSV_NAME ∈ files
  · refine ⟨fun _ => ?_, ?_, ?_⟩
    · simp only [findCsvPath, if_pos hmem]
    · simp only [findCsvPath, if_pos hmem]
      exact iff_of_false (fun h => by cases h) (fun hh => hh.1 hmem)
    · intro p hnot
      exact absurd hmem hnot
  · have hperm := List.perm_insertionSort strLe (files.filter (fun f => endsWithS f ".csv"))
    cases hL : List.insertionSort strLe (files.filter (fun f => endsWithS f ".csv")) with
    | nil =>
      have hfilt : files.filter (fun f => endsWithS f ".csv") = [] := by
        rw [hL] at hperm
        exact hperm.symm.eq_nil
      refine ⟨fun h => absurd h hmem, ?_, ?_⟩
      · simp only [findCsvPath, if_neg hmem, hL]
        exact iff_of_true (by trivial) ⟨hmem, hfilt⟩
      · intro p hnot hp
        simp only [findCsvPath, if_neg hmem, hL] at hp
        cases hp
    | cons f fs =>
      have hsort : List.Sorted strLe (f :: fs) := hL ▸ List.sorted_insertionSort strLe _
      have hmemf : f ∈ files.filter (fun f => endsWithS f ".csv") := by
        have hf : f ∈ List.insertionSort strLe (files.filter (fun f => endsWithS f ".csv")) := by
          rw [hL]
          exact List.mem_cons_self f fs
        exact hperm.mem_iff.mp hf
      refine ⟨fun h => absurd h hmem, ?_, ?_⟩
      · simp only [findCsvPath, if_neg hmem, hL]
        refine iff_of_false (fun h => by cases h) ?_
        intro hh
        rw [hh.2] at hmemf
        cases hmemf
      · intro p hnot hp
        simp only [findCsvPath, if_neg hmem, hL] at hp
        injection hp with hpf
        subst hpf
        obtain ⟨hpfile, hpcsv⟩ := List.mem_filter.mp hmemf
        refine ⟨hpfile, hpcsv, ?_⟩
        intro q hq hqcsv
        have hqf : q ∈ files.filter (fun f => endsWithS f ".csv") :=
          List.mem_filter.mpr ⟨hq, hqcsv⟩
        have hqs : q ∈ f :: fs := by
          rw [← hL]
          exact hperm.mem_iff.mpr hqf
        rcases List.mem_cons.mp hqs with rfl | hq2
        · exact strLeChars_refl _
        · exact (List.sorted_cons.mp hsort).1 q hq2

theorem locate_rules_witness :
    findCsvPath ["zz.csv", "movies.csv"] = Except.ok DEFAULT_CSV_NAME ∧
    ("aa.csv" ∈ ["zz.csv", "aa.csv", "x.txt"] ∧ endsWithS "aa.csv" ".csv" = true ∧
      ∀ q ∈ ["zz.csv", "aa.csv", "x.txt"], endsWithS q ".csv" = true → strLe "aa.csv" q) :=
  ⟨(locate_rules ["zz.csv", "movies.csv"]).1 (by decide),
   (locate_rules ["zz.csv", "aa.csv", "x.txt"]).2.2 "aa.csv" (by decide) (by rfl)⟩

end Movies
